import Mathlib

/-!
Verification of the worksheet text-layout engine and its companions
(`app.py`): the inline-markup tokenizer, the greedy line wrapper used for
underline and colour rendering, the fill-in-the-blank substitution, the
student-worksheet pagination, the word-list deduplication, and the e-mail
CC filter.  Strings are modelled as `List Char`; pixel widths as `ℚ`.
The font-metric function `pdfmetrics.stringWidth` is an external
collaborator and is taken as a parameter `sw : List Char → ℚ`.
-/

namespace Worksheet

/-- The literal characters of the opening underline tag `<u>`. -/
def uOpen : List Char := ['<', 'u', '>']

/-- The literal characters of the closing underline tag `</u>`. -/
def uClose : List Char := ['<', '/', 'u', '>']

/-- The literal characters of the opening colour tag `<red>`. -/
def redOpen : List Char := ['<', 'r', 'e', 'd', '>']

/-- The literal characters of the closing colour tag `</red>`. -/
def redClose : List Char := ['<', '/', 'r', 'e', 'd', '>']

/-- A styled token: either a single plain character or one atomic tagged
run carrying the span's inner text (`tokens.append(p)` vs
`tokens.extend(list(p))` in both drawing helpers of `app.py`). -/
inductive Token where
  | plain (c : Char)
  | tagged (inner : List Char)
deriving DecidableEq, Repr

/-- Minimal (non-greedy) search for the closing tag, as the regex
`.*?CLOSE` does: at each position first try to read `closeT`, otherwise
consume one character, which must not be a newline (`.` in Python's `re`
does not match `'\n'`).  Returns the consumed span and the remainder
after the closing tag. -/
def findClose (closeT : List Char) : List Char → Option (List Char × List Char)
  | [] => none
  | c :: cs =>
    if closeT.isPrefixOf (c :: cs) then some ([], (c :: cs).drop closeT.length)
    else if c = '\n' then none
    else
      match findClose closeT cs with
      | some (inner, rest) => some (c :: inner, rest)
      | none => none

/-- Leftmost match of the pattern `OPEN.*?CLOSE` (as used by
`re.split(r'(<u>.*?</u>)', text)`):  returns the text before the match,
the span's inner text and the remainder after the match. -/
def findSpan (openT closeT : List Char) : List Char → Option (List Char × List Char × List Char)
  | [] => none
  | c :: cs =>
    if openT.isPrefixOf (c :: cs) then
      match findClose closeT ((c :: cs).drop openT.length) with
      | some (inner, rest) => some ([], inner, rest)
      | none =>
        match findSpan openT closeT cs with
        | some (pre, inner, rest) => some (c :: pre, inner, rest)
        | none => none
    else
      match findSpan openT closeT cs with
      | some (pre, inner, rest) => some (c :: pre, inner, rest)
      | none => none

/-- Turn one `re.split` fragment into tokens, exactly as the loop over
`parts` does: empty fragments are skipped, a fragment that starts with
the opening tag and ends with the closing tag becomes one tagged token
whose inner text is `p[len(open):-len(close)]`, and any other fragment
is exploded into single plain characters. -/
def mkPart (openT closeT : List Char) (p : List Char) : List Token :=
  if p = [] then []
  else if openT.isPrefixOf p ∧ closeT.isSuffixOf p then
    [Token.tagged ((p.drop openT.length).take (p.length - openT.length - closeT.length))]
  else p.map Token.plain

/-- Fuel-indexed tokenizer: split the input at each leftmost tagged span
(the captured group becomes one tagged token) and explode everything
else into plain characters.  The fuel only bounds the number of spans;
`tokenizeWith` supplies `s.length`, which always suffices because every
span consumes at least the two tags. -/
def tokenizeF (openT closeT : List Char) : Nat → List Char → List Token
  | 0, s => mkPart openT closeT s
  | fuel + 1, s =>
    match findSpan openT closeT s with
    | none => mkPart openT closeT s
    | some (pre, inner, rest) =>
      mkPart openT closeT pre ++ Token.tagged inner :: tokenizeF openT closeT fuel rest

/-- Tokenization of `re.split(r'(OPEN.*?CLOSE)', text)` plus the per-part
loop of the drawing helpers. -/
def tokenizeWith (openT closeT : List Char) (s : List Char) : List Token :=
  tokenizeF openT closeT s.length s

/-- The underline tokenizer of `draw_text_with_underline_wrapped`. -/
def tokenize (s : List Char) : List Token :=
  tokenizeWith uOpen uClose s

/-- The colour tokenizer of `_draw_answer_line_wrapped`. -/
def tokenizeRed (s : List Char) : List Token :=
  tokenizeWith redOpen redClose s

/-- The visible text of a token: the inner text for a tagged run, the
character itself for a plain token (this is the string each helper
passes to `drawString` and to `stringWidth`). -/
def visible : Token → List Char
  | .plain c => [c]
  | .tagged inner => inner

/-- Re-serialize one token: a plain token contributes its character, a
tagged run is re-wrapped in its tag delimiters. -/
def serializeTok (openT closeT : List Char) : Token → List Char
  | .plain c => [c]
  | .tagged inner => openT ++ inner ++ closeT

/-- Re-serialize a token sequence: plain tokens concatenated, tagged
runs re-wrapped in their tag delimiters. -/
def reserialize (openT closeT : List Char) (toks : List Token) : List Char :=
  (toks.map (serializeTok openT closeT)).flatten

/-- The visible text of a token sequence, concatenated in order. -/
def visibleText (toks : List Token) : List Char :=
  (toks.map visible).flatten

/-- One fragment of the input with its markup delimiters stripped:
the delimiters of a tagged fragment are removed and its inner text kept,
anything else is kept verbatim (unmatched or malformed tags stay as
literal characters).  Claim-side companion of `mkPart`. -/
def stripPart (p : List Char) : List Char :=
  if uOpen.isPrefixOf p ∧ uClose.isSuffixOf p then
    (p.drop uOpen.length).take (p.length - uOpen.length - uClose.length)
  else p

/-- Fuel-indexed version of `stripTags`. -/
def stripTagsF : Nat → List Char → List Char
  | 0, s => stripPart s
  | fuel + 1, s =>
    match findSpan uOpen uClose s with
    | none => stripPart s
    | some (pre, inner, rest) => stripPart pre ++ inner ++ stripTagsF fuel rest

/-- The input string with its underline markup tags stripped and the
tagged spans' inner text preserved: every tagged span loses its
delimiters and keeps its inner text, all other characters stay verbatim.
This is the claim-side description of the "visible text" of an input
paragraph. -/
def stripTags (s : List Char) : List Char :=
  stripTagsF s.length s

/-- The per-token width used by both wrappers: `stringWidth` of the
token's visible text (`measure` in `app.py`, with the external
font-metric function abstracted as `sw`). -/
def measure (sw : List Char → ℚ) (tok : Token) : ℚ :=
  sw (visible tok)

/-- The greedy line-packing loop of `draw_text_with_underline_wrapped`
(lines 408-423 of `app.py`), purified: instead of drawing, each flushed
line is returned together with the `y` at which it is drawn, and the
final cursor `y` is returned as the second component.  State: remaining
tokens, current line buffer, its accumulated width, current `y`. -/
def wrapAux (meas : Token → ℚ) (maxW lh : ℚ) :
    List Token → List Token → ℚ → ℚ → List (List Token × ℚ) × ℚ
  | [], buf, _, curY =>
    if buf = [] then ([], curY - 12)
    else ([(buf, curY)], curY - lh - 12)
  | t :: ts, buf, w, curY =>
    if maxW < w + meas t ∧ buf ≠ [] then
      let r := wrapAux meas maxW lh ts [t] (meas t) (curY - lh)
      ((buf, curY) :: r.1, r.2)
    else
      wrapAux meas maxW lh ts (buf ++ [t]) (w + meas t) curY

/-- The identical greedy line-packing loop of `_draw_answer_line_wrapped`
(lines 461-476 of `app.py`), kept as its own definition so that the two
can be compared. -/
def wrapAuxRed (meas : Token → ℚ) (maxW lh : ℚ) :
    List Token → List Token → ℚ → ℚ → List (List Token × ℚ) × ℚ
  | [], buf, _, curY =>
    if buf = [] then ([], curY - 12)
    else ([(buf, curY)], curY - lh - 12)
  | t :: ts, buf, w, curY =>
    if maxW < w + meas t ∧ buf ≠ [] then
      let r := wrapAuxRed meas maxW lh ts [t] (meas t) (curY - lh)
      ((buf, curY) :: r.1, r.2)
    else
      wrapAuxRed meas maxW lh ts (buf ++ [t]) (w + meas t) curY

/-- `draw_text_with_underline_wrapped(c, x, y, text, font, size,
max_width, line_height)` purified: tokenize with underline tags, pack
greedily, return the flushed lines (with their draw positions) and the
final cursor `y` (start `y` minus one line height per flushed line,
minus the fixed paragraph spacing of 12). -/
def draw_text_with_underline_wrapped (sw : List Char → ℚ) (y : ℚ) (text : List Char)
    (maxW lh : ℚ) : List (List Token × ℚ) × ℚ :=
  wrapAux (measure sw) maxW lh (tokenize text) [] 0 y

/-- `_draw_answer_line_wrapped` purified in the same way, with colour
tags. -/
def draw_answer_line_wrapped (sw : List Char → ℚ) (y : ℚ) (text : List Char)
    (maxW lh : ℚ) : List (List Token × ℚ) × ℚ :=
  wrapAuxRed (measure sw) maxW lh (tokenizeRed text) [] 0 y

/-- The fill-in-the-blank replacement of `create_pdf.replace_blank`:
the matched target word is replaced by `max(len(word)*2, 4)` blank
characters wrapped in underline tags. -/
def replace_blank (word : List Char) : List Char :=
  uOpen ++ List.replicate (max (word.length * 2) 4) ' ' ++ uClose

/-- Leftmost match of the pattern `【([^】]+)】`: a `【`, then a non-empty
greedy run of characters other than `】`, then a `】`.  Returns the text
before the match, the captured word and the remainder. -/
def findBlank : List Char → Option (List Char × List Char × List Char)
  | [] => none
  | c :: cs =>
    if c = '【' then
      let run := cs.takeWhile (fun d => d ≠ '】')
      if run ≠ [] ∧ run.length < cs.length then
        some ([], run, cs.drop (run.length + 1))
      else
        match findBlank cs with
        | some (pre, w, rest) => some (c :: pre, w, rest)
        | none => none
    else
      match findBlank cs with
      | some (pre, w, rest) => some (c :: pre, w, rest)
      | none => none

/-- Fuel-indexed version of `sub_blank`. -/
def sub_blankF : Nat → List Char → List Char
  | 0, s => s
  | fuel + 1, s =>
    match findBlank s with
    | none => s
    | some (pre, w, rest) => pre ++ replace_blank w ++ sub_blankF fuel rest

/-- `re.sub(r'【([^】]+)】', replace_blank, content)`: every bracketed
target word is replaced by its sized blank. -/
def sub_blank (s : List Char) : List Char :=
  sub_blankF s.length s

/-- The literal characters of the proper-noun marker pair `【】`. -/
def mTag : List Char := ['【', '】']

/-- Fuel-indexed version of `sub_mark`. -/
def sub_markF : Nat → List Char → List Char
  | 0, s => s
  | fuel + 1, s =>
    match findSpan mTag mTag s with
    | none => s
    | some (pre, inner, rest) =>
      pre ++ uOpen ++ inner ++ uClose ++ sub_markF fuel rest

/-- `re.sub(r'【】(.*?)【】', r'<u>\1</u>', content)`: every doubly
marked proper-noun span is turned into an underline span. -/
def sub_mark (s : List Char) : List Char :=
  sub_markF s.length s

/-- The content transformation applied to each question in `create_pdf`:
proper-noun marks first, then fill-in-the-blank substitution. -/
def applySubsts (s : List Char) : List Char :=
  sub_blank (sub_mark s)

/-- Layout constants of `app.py` and the letter page size (612 x 792). -/
def PDF_LEFT_NUM : ℚ := 60

/-- `PDF_TEXT_START = PDF_LEFT_NUM + 30`. -/
def PDF_TEXT_START : ℚ := PDF_LEFT_NUM + 30

/-- `PDF_RIGHT_MARGIN`. -/
def PDF_RIGHT_MARGIN : ℚ := 40

/-- `PDF_LINE_HEIGHT`. -/
def PDF_LINE_HEIGHT : ℚ := 26

/-- Letter page height. -/
def pageHeight : ℚ := 792

/-- Letter page width. -/
def pageWidth : ℚ := 612

/-- `_get_max_width()`: page width minus right margin minus text start. -/
def get_max_width : ℚ := pageWidth - PDF_RIGHT_MARGIN - PDF_TEXT_START

/-- One worksheet question: the vocabulary word and the sentence text. -/
structure Question where
  word : List Char
  content : List Char
deriving DecidableEq, Repr

/-- The layout record of one question in the student worksheet: whether
a page break was inserted before it, the `y` at which its first line is
drawn, and the `y` of every wrapped line of its content. -/
structure QuestionLayout where
  pageBreak : Bool
  startY : ℚ
  lineYs : List ℚ
deriving DecidableEq, Repr

/-- Lay out one question as `create_pdf` does: transform the content,
break the page when `cur_y - PDF_LINE_HEIGHT < 60` (resetting to
`page_height - 60`), then wrap the content.  Returns the layout record
and the cursor `y` after the question. -/
def layoutQuestion (sw : List Char → ℚ) (curY : ℚ) (q : Question) :
    QuestionLayout × ℚ :=
  let content := applySubsts q.content
  let pb : Bool := decide (curY - PDF_LINE_HEIGHT < 60)
  let y0 : ℚ := if pb then pageHeight - 60 else curY
  let r := draw_text_with_underline_wrapped sw y0 content get_max_width PDF_LINE_HEIGHT
  (⟨pb, y0, r.1.map Prod.snd⟩, r.2)

/-- Lay out a list of questions sequentially, threading the cursor. -/
def layoutQuestions (sw : List Char → ℚ) : List Question → ℚ → List QuestionLayout × ℚ
  | [], curY => ([], curY)
  | q :: qs, curY =>
    let p := layoutQuestion sw curY q
    let r := layoutQuestions sw qs p.2
    (p.1 :: r.1, r.2)

/-- Python's `str.strip()`: remove leading and trailing whitespace. -/
def trimChars (l : List Char) : List Char :=
  ((l.dropWhile Char.isWhitespace).reverse.dropWhile Char.isWhitespace).reverse

/-- `list(dict.fromkeys(lst))`: iterate over the list, keeping each
element the first time it is seen. -/
def dedupFirst {α : Type} [DecidableEq α] (l : List α) : List α :=
  l.foldl (fun acc w => if w ∈ acc then acc else acc ++ [w]) []

/-- `_draw_word_list_page`, purified to its data content: deduplicate
the non-empty words; if none remain, return `none` (the early `return`
before `showPage`, so no word-list page is added), otherwise the list of
entries drawn on the appendix page(s). -/
def draw_word_list_page (words : List (List Char)) : Option (List (List Char)) :=
  let unique_words := dedupFirst (words.filter (fun w => !w.isEmpty))
  if unique_words = [] then none else some unique_words

/-- `create_pdf`, purified to its layout dynamics: after the title
(30 down from `page_height - 60`) and the date line (another 30), the
questions are laid out sequentially; afterwards the word-list appendix
receives the stripped words of the questions.  Returns the question
layouts, the final cursor `y`, and the word-list page content. -/
def create_pdf (sw : List Char → ℚ) (questions : List Question) :
    List QuestionLayout × ℚ × Option (List (List Char)) :=
  let r := layoutQuestions sw questions (pageHeight - 60 - 30 - 30)
  (r.1, r.2, draw_word_list_page (questions.map (fun q => trimChars q.word)))

/-- Python's `str.lower()` on the character-list model. -/
def toLowerChars (l : List Char) : List Char :=
  l.map Char.toLower

/-- The CC-handling block of `send_email_with_pdf` (lines 755-758 of
`app.py`): given the already-stripped primary recipient and the raw CC
value, return the CC address added to the message, if any.  A falsy
(empty) CC is skipped; otherwise it is stripped and lowercased, and
added only if it is not a placeholder, contains `@`, and differs from
the lowercased recipient. -/
def add_cc (recipient cc_email : List Char) : Option (List Char) :=
  if cc_email = [] then none
  else
    let cc_clean := toLowerChars (trimChars cc_email)
    if cc_clean ∉ ["n/a".data, "nan".data, "".data, "none".data] ∧ '@' ∈ cc_clean ∧
        cc_clean ≠ toLowerChars recipient then
      some cc_clean
    else none

/-- The claim-side CC condition: after trimming and lowercasing, the CC
value is not in the placeholder set, contains the character `@`, and
differs from the lowercased primary recipient. -/
def ccSpecOk (recipient cc_email : List Char) : Prop :=
  toLowerChars (trimChars cc_email) ∉ ["".data, "n/a".data, "nan".data, "none".data] ∧
  '@' ∈ toLowerChars (trimChars cc_email) ∧
  toLowerChars (trimChars cc_email) ≠ toLowerChars recipient

/-- The claim-side first-occurrence deduplication: keep the head, drop
its later duplicates, recurse. -/
def firstOccur {α : Type} [DecidableEq α] : List α → List α
  | [] => []
  | a :: as => a :: (firstOccur as).filter (fun b => b ≠ a)

/-! ## Lemmas about the greedy line-packing loop -/

/-- Flushed lines partition the buffered and remaining tokens, in order. -/
theorem wrapAux_flatten (meas : Token → ℚ) (maxW lh : ℚ) :
    ∀ (ts buf : List Token) (w y : ℚ),
      ((wrapAux meas maxW lh ts buf w y).1.map Prod.fst).flatten = buf ++ ts := by
  intro ts
  induction ts with
  | nil =>
    intro buf w y
    by_cases h : buf = [] <;> simp [wrapAux, h]
  | cons t ts ih =>
    intro buf w y
    by_cases h : maxW < w + meas t ∧ buf ≠ [] <;>
      simp [wrapAux, h, ih]

/-- The cursor returned by the loop is the starting cursor minus one
line height per flushed line, minus the fixed paragraph spacing 12. -/
theorem wrapAux_snd (meas : Token → ℚ) (maxW lh : ℚ) :
    ∀ (ts buf : List Token) (w y : ℚ),
      (wrapAux meas maxW lh ts buf w y).2
        = y - lh * ((wrapAux meas maxW lh ts buf w y).1.length : ℚ) - 12 := by
  intro ts
  induction ts with
  | nil =>
    intro buf w y
    by_cases h : buf = [] <;> simp [wrapAux, h]
  | cons t ts ih =>
    intro buf w y
    by_cases h : maxW < w + meas t ∧ buf ≠ []
    · simp only [wrapAux, if_pos h]
      rw [ih]
      simp only [List.length_cons]
      push_cast
      ring
    · simp only [wrapAux, if_neg h]
      exact ih (buf ++ [t]) (w + meas t) y

/-- Loop invariant for the width property: every flushed line is
non-empty, and its total measured width fits in `maxW` unless it is a
single token. -/
theorem wrapAux_width (meas : Token → ℚ) (maxW lh : ℚ) :
    ∀ (ts buf : List Token) (w y : ℚ),
      w = (buf.map meas).sum →
      (buf = [] ∨ (buf.map meas).sum ≤ maxW ∨ buf.length = 1) →
      ∀ L ∈ (wrapAux meas maxW lh ts buf w y).1.map Prod.fst,
        L ≠ [] ∧ ((L.map meas).sum ≤ maxW ∨ L.length = 1) := by
  intro ts
  induction ts with
  | nil =>
    intro buf w y hw hbuf L hL
    by_cases h : buf = []
    · simp [wrapAux, h] at hL
    · simp [wrapAux, h] at hL
      subst hL
      exact ⟨h, hbuf.resolve_left h⟩
  | cons t ts ih =>
    intro buf w y hw hbuf L hL
    by_cases h : maxW < w + meas t ∧ buf ≠ []
    · simp only [wrapAux, if_pos h, List.map_cons, List.mem_cons] at hL
      rcases hL with rfl | hL
      · exact ⟨h.2, hbuf.resolve_left h.2⟩
      · exact ih [t] (meas t) (y - lh) (by simp) (Or.inr (Or.inr rfl)) L hL
    · simp only [wrapAux, if_neg h] at hL
      refine ih (buf ++ [t]) (w + meas t) y (by simp [hw]) ?_ L hL
      rcases not_and_or.mp h with h1 | h1
      · refine Or.inr (Or.inl ?_)
        have : (buf.map meas).sum + meas t ≤ maxW := by
          rw [← hw]; linarith [not_lt.mp h1]
        simpa using this
      · have : buf = [] := not_not.mp h1
        subst this
        simp

/-- The two greedy loops are the same function. -/
theorem wrapAuxRed_eq_wrapAux (meas : Token → ℚ) (maxW lh : ℚ) :
    ∀ (ts buf : List Token) (w y : ℚ),
      wrapAuxRed meas maxW lh ts buf w y = wrapAux meas maxW lh ts buf w y := by
  intro ts
  induction ts with
  | nil => intro buf w y; rfl
  | cons t ts ih =>
    intro buf w y
    by_cases h : maxW < w + meas t ∧ buf ≠ [] <;>
      simp [wrapAux, wrapAuxRed, h, ih]

/-! ## Lemmas about the tokenizer -/

/-- Soundness of the close-tag search: the characters consumed, the
closing tag and the remainder reassemble to the input. -/
theorem findClose_spec (closeT : List Char) :
    ∀ (l inner rest : List Char), findClose closeT l = some (inner, rest) →
      l = inner ++ closeT ++ rest := by
  intro l
  induction l with
  | nil => intro inner rest h; simp [findClose] at h
  | cons c cs ih =>
    intro inner rest h
    rw [findClose] at h
    by_cases h1 : closeT.isPrefixOf (c :: cs)
    · rw [if_pos h1] at h
      simp only [Option.some.injEq, Prod.mk.injEq] at h
      obtain ⟨h2, h3⟩ := h
      obtain ⟨t, ht⟩ := List.isPrefixOf_iff_prefix.mp h1
      subst h2; subst h3
      rw [← ht, List.drop_left]
      simp
    · rw [if_neg h1] at h
      by_cases h2 : c = '\n'
      · rw [if_pos h2] at h; simp at h
      · rw [if_neg h2] at h
        cases hm : findClose closeT cs with
        | none => rw [hm] at h; simp at h
        | some p =>
          obtain ⟨i, r⟩ := p
          rw [hm] at h
          simp only [Option.some.injEq, Prod.mk.injEq] at h
          obtain ⟨h3, h4⟩ := h
          subst h3; subst h4
          simp [ih i r hm]

/-- Soundness of the leftmost-span search: prefix, opening tag, inner
text, closing tag and remainder reassemble to the input. -/
theorem findSpan_spec (openT closeT : List Char) :
    ∀ (s pre inner rest : List Char),
      findSpan openT closeT s = some (pre, inner, rest) →
      s = pre ++ openT ++ inner ++ closeT ++ rest := by
  intro s
  induction s with
  | nil => intro pre inner rest h; simp [findSpan] at h
  | cons c cs ih =>
    intro pre inner rest h
    rw [findSpan] at h
    by_cases h1 : openT.isPrefixOf (c :: cs)
    · rw [if_pos h1] at h
      obtain ⟨t, ht⟩ := List.isPrefixOf_iff_prefix.mp h1
      cases hm : findClose closeT ((c :: cs).drop openT.length) with
      | some p =>
        obtain ⟨i, r⟩ := p
        rw [hm] at h
        simp only [Option.some.injEq, Prod.mk.injEq] at h
        obtain ⟨hp, hi, hr⟩ := h
        subst hp; subst hi; subst hr
        have hdrop : (c :: cs).drop openT.length = t := by rw [← ht, List.drop_left]
        have hcl := findClose_spec closeT _ i r hm
        rw [hdrop] at hcl
        rw [← ht, hcl]
        simp
      | none =>
        rw [hm] at h
        cases hm2 : findSpan openT closeT cs with
        | none => rw [hm2] at h; simp at h
        | some p =>
          obtain ⟨p1, i1, r1⟩ := p
          rw [hm2] at h
          simp only [Option.some.injEq, Prod.mk.injEq] at h
          obtain ⟨hp, hi, hr⟩ := h
          subst hp; subst hi; subst hr
          simp [ih p1 i1 r1 hm2]
    · rw [if_neg h1] at h
      cases hm2 : findSpan openT closeT cs with
      | none => rw [hm2] at h; simp at h
      | some p =>
        obtain ⟨p1, i1, r1⟩ := p
        rw [hm2] at h
        simp only [Option.some.injEq, Prod.mk.injEq] at h
        obtain ⟨hp, hi, hr⟩ := h
        subst hp; subst hi; subst hr
        simp [ih p1 i1 r1 hm2]

/-- The remainder of an underline-span match is strictly shorter than
the input, so the fuel `s.length` used by `tokenizeWith` suffices. -/
theorem findSpan_u_rest_lt {s pre inner rest : List Char}
    (h : findSpan uOpen uClose s = some (pre, inner, rest)) :
    rest.length < s.length := by
  have hlen := congrArg List.length (findSpan_spec uOpen uClose s pre inner rest h)
  simp [uOpen, uClose] at hlen
  omega

/-- A fragment that passes the tag check decomposes as opening tag,
extracted inner text, closing tag. -/
theorem mkPart_tag_eq {p : List Char}
    (hpre : uOpen.isPrefixOf p = true) (hsuf : uClose.isSuffixOf p = true) :
    p = uOpen ++ (p.drop uOpen.length).take (p.length - uOpen.length - uClose.length)
        ++ uClose := by
  obtain ⟨t, ht⟩ := List.isPrefixOf_iff_prefix.mp hpre
  obtain ⟨q, hq⟩ := List.isSuffixOf_iff_suffix.mp hsuf
  subst ht
  rcases q with _ | ⟨a, q⟩
  · simp [uOpen, uClose] at hq
  rcases q with _ | ⟨b, q⟩
  · simp [uOpen, uClose] at hq
  rcases q with _ | ⟨c2, q⟩
  · simp [uOpen, uClose] at hq
  · have hq' : q ++ uClose = t := by
      have := hq
      simp only [uOpen, uClose, List.cons_append, List.append_assoc, List.cons.injEq] at this
      exact this.2.2.2
    subst hq'
    simp [uOpen, uClose, List.take_left]

/-- Concatenating the images of plain tokens under any
one-character-per-plain-token map recovers the original characters. -/
theorem flatten_map_plain (f : Token → List Char) (hf : ∀ c, f (Token.plain c) = [c]) :
    ∀ p : List Char, ((p.map Token.plain).map f).flatten = p := by
  intro p
  induction p with
  | nil => simp
  | cons c p ih =>
    simp only [List.map_cons, List.flatten_cons, hf, ih, List.singleton_append]

/-- `reserialize` distributes over list append. -/
theorem reserialize_append (openT closeT : List Char) (l1 l2 : List Token) :
    reserialize openT closeT (l1 ++ l2)
      = reserialize openT closeT l1 ++ reserialize openT closeT l2 := by
  simp [reserialize]

/-- `reserialize` on a cons. -/
theorem reserialize_cons (openT closeT : List Char) (t : Token) (ts : List Token) :
    reserialize openT closeT (t :: ts)
      = serializeTok openT closeT t ++ reserialize openT closeT ts := by
  simp [reserialize]

/-- `visibleText` distributes over list append. -/
theorem visibleText_append (l1 l2 : List Token) :
    visibleText (l1 ++ l2) = visibleText l1 ++ visibleText l2 := by
  simp [visibleText]

/-- `visibleText` on a cons. -/
theorem visibleText_cons (t : Token) (ts : List Token) :
    visibleText (t :: ts) = visible t ++ visibleText ts := by
  simp [visibleText]

/-- Re-serializing the tokens of one fragment recovers the fragment. -/
theorem reserialize_mkPart (p : List Char) :
    reserialize uOpen uClose (mkPart uOpen uClose p) = p := by
  rw [mkPart]
  by_cases hp : p = []
  · simp [hp, reserialize]
  · rw [if_neg hp]
    by_cases hc : uOpen.isPrefixOf p ∧ uClose.isSuffixOf p
    · rw [if_pos hc]
      rw [reserialize_cons]
      simp only [reserialize, List.map_nil, List.flatten_nil, List.append_nil, serializeTok]
      have := mkPart_tag_eq hc.1 hc.2
      simp only [List.append_assoc] at this ⊢
      exact this.symm
    · rw [if_neg hc]
      exact flatten_map_plain _ (fun c => rfl) p

/-- The visible text of one fragment's tokens is the fragment with its
markup delimiters stripped. -/
theorem visibleText_mkPart (p : List Char) :
    visibleText (mkPart uOpen uClose p) = stripPart p := by
  rw [mkPart, stripPart]
  by_cases hp : p = []
  · subst hp
    have : ¬ (uOpen.isPrefixOf ([] : List Char) = true ∧
        uClose.isSuffixOf ([] : List Char) = true) := by
      intro hcon
      simp [uOpen, List.isPrefixOf] at hcon
    simp [visibleText, this]
  · rw [if_neg hp]
    by_cases hc : uOpen.isPrefixOf p ∧ uClose.isSuffixOf p
    · rw [if_pos hc, if_pos hc]
      simp [visibleText, visible]
    · rw [if_neg hc, if_neg hc]
      exact flatten_map_plain visible (fun c => rfl) p

/-- With enough fuel, re-serializing the token sequence recovers the
input string exactly: tokenization drops and duplicates nothing. -/
theorem reserialize_tokenizeF :
    ∀ (fuel : Nat) (s : List Char), s.length ≤ fuel →
      reserialize uOpen uClose (tokenizeF uOpen uClose fuel s) = s := by
  intro fuel
  induction fuel with
  | zero =>
    intro s hs
    have hnil : s = [] := List.length_eq_zero.mp (Nat.le_zero.mp hs)
    subst hnil
    exact reserialize_mkPart []
  | succ fuel ih =>
    intro s hs
    rw [tokenizeF]
    cases hm : findSpan uOpen uClose s with
    | none => exact reserialize_mkPart s
    | some pir =>
      obtain ⟨pre, inner, rest⟩ := pir
      have hrest : rest.length ≤ fuel := by
        have := findSpan_u_rest_lt hm; omega
      rw [reserialize_append, reserialize_cons, reserialize_mkPart, ih rest hrest]
      have hspec := findSpan_spec uOpen uClose s pre inner rest hm
      rw [hspec]
      simp [serializeTok]

/-- With enough fuel, the concatenated visible text of the token
sequence is the input with its markup tags stripped. -/
theorem visibleText_tokenizeF :
    ∀ (fuel : Nat) (s : List Char), s.length ≤ fuel →
      visibleText (tokenizeF uOpen uClose fuel s) = stripTagsF fuel s := by
  intro fuel
  induction fuel with
  | zero =>
    intro s hs
    have hnil : s = [] := List.length_eq_zero.mp (Nat.le_zero.mp hs)
    subst hnil
    exact visibleText_mkPart []
  | succ fuel ih =>
    intro s hs
    rw [tokenizeF, stripTagsF]
    cases hm : findSpan uOpen uClose s with
    | none => exact visibleText_mkPart s
    | some pir =>
      obtain ⟨pre, inner, rest⟩ := pir
      have hrest : rest.length ≤ fuel := by
        have := findSpan_u_rest_lt hm; omega
      rw [visibleText_append, visibleText_cons, visibleText_mkPart, ih rest hrest]
      simp [visible]

/-- Re-serializing the underline tokenizer's output recovers the input. -/
theorem reserialize_tokenize (s : List Char) :
    reserialize uOpen uClose (tokenize s) = s :=
  reserialize_tokenizeF s.length s le_rfl

/-- The visible text of the underline tokenizer's output is the input
with its tags stripped. -/
theorem visibleText_tokenize (s : List Char) :
    visibleText (tokenize s) = stripTags s :=
  visibleText_tokenizeF s.length s le_rfl

/-- C2: for every input string, maximum width and width-measurement
function, every line produced by the greedy line wrapper (in both the
underline and the colour variant) is non-empty, and either the sum of
the measured widths of its tokens is at most `maxW` or the line
consists of exactly one token (the unsplittable-overflow case, placed
alone on its own line). -/
theorem C2_line_width (sw : List Char → ℚ) (maxW lh y : ℚ) (text : List Char) :
    (∀ L ∈ (draw_text_with_underline_wrapped sw y text maxW lh).1.map Prod.fst,
        L ≠ [] ∧ ((L.map (measure sw)).sum ≤ maxW ∨ L.length = 1)) ∧
    (∀ L ∈ (draw_answer_line_wrapped sw y text maxW lh).1.map Prod.fst,
        L ≠ [] ∧ ((L.map (measure sw)).sum ≤ maxW ∨ L.length = 1)) := by
  constructor
  · exact wrapAux_width (measure sw) maxW lh (tokenize text) [] 0 y (by simp) (Or.inl rfl)
  · intro L hL
    rw [draw_answer_line_wrapped, wrapAuxRed_eq_wrapAux] at hL
    exact wrapAux_width (measure sw) maxW lh (tokenizeRed text) [] 0 y (by simp) (Or.inl rfl) L hL

/-- Witness for C2 at a concrete input: with unit character widths and
`maxW = 2`, the text `abc` wraps into `[a, b]` and `[c]`; the line
`[a, b]` is produced and satisfies the width bound. -/
theorem C2_line_width_witness :
    ([Token.plain 'a', Token.plain 'b'] ∈
      (draw_text_with_underline_wrapped (fun _ => (1 : ℚ)) 0 "abc".data 2 1).1.map
        Prod.fst) ∧
    ([Token.plain 'a', Token.plain 'b'] ≠ [] ∧
      (([Token.plain 'a', Token.plain 'b'].map (measure (fun _ => (1 : ℚ)))).sum ≤ 2 ∨
        [Token.plain 'a', Token.plain 'b'].length = 1)) := by
  have htoks : tokenize "abc".data
      = [Token.plain 'a', Token.plain 'b', Token.plain 'c'] := by decide
  have hlines : (draw_text_with_underline_wrapped (fun _ => (1 : ℚ)) 0 "abc".data 2 1).1.map
      Prod.fst = [[Token.plain 'a', Token.plain 'b'], [Token.plain 'c']] := by
    rw [draw_text_with_underline_wrapped, htoks]
    norm_num [wrapAux, measure, visible]
    simp
  constructor
  · rw [hlines]; simp
  · exact (C2_line_width (fun _ => (1 : ℚ)) 2 1 0 "abc".data).1 _ (by rw [hlines]; simp)

/-- C5: for every paragraph, the cursor returned by the line wrapper is
the starting `y` minus the line height for each flushed line, minus the
fixed paragraph-spacing decrement 12 applied exactly once, and the
flushed lines contain exactly the tokens of the paragraph in order (so
tokens remaining buffered after the last token are flushed as a final
line). -/
theorem C5_paragraph_cursor (sw : List Char → ℚ) (maxW lh y : ℚ) (text : List Char) :
    (draw_text_with_underline_wrapped sw y text maxW lh).2
      = y - lh * ((draw_text_with_underline_wrapped sw y text maxW lh).1.length : ℚ) - 12 ∧
    ((draw_text_with_underline_wrapped sw y text maxW lh).1.map Prod.fst).flatten
      = tokenize text := by
  constructor
  · exact wrapAux_snd (measure sw) maxW lh (tokenize text) [] 0 y
  · rw [draw_text_with_underline_wrapped, wrapAux_flatten]
    simp

/-- C7: the underline-tag wrapper and the colour-tag wrapper implement
the same wrapping algorithm: whenever a text with underline spans and a
text with colour spans tokenize to the same token sequence (the tagged
spans correspond under the mapping of underline tags to colour tags),
both functions produce identical lines at identical positions and
return the same final cursor `y`, for any common width measurement. -/
theorem C7_same_algorithm (sw : List Char → ℚ) (maxW lh y : ℚ) (tU tR : List Char)
    (h : tokenizeRed tR = tokenize tU) :
    draw_answer_line_wrapped sw y tR maxW lh
      = draw_text_with_underline_wrapped sw y tU maxW lh := by
  rw [draw_answer_line_wrapped, draw_text_with_underline_wrapped, h, wrapAuxRed_eq_wrapAux]

/-- Witness for C7 at a concrete input: `a<red>bc</red>` and
`a<u>bc</u>` carry the same spans, and both wrappers lay them out
identically. -/
theorem C7_same_algorithm_witness :
    tokenizeRed "a<red>bc</red>".data = tokenize "a<u>bc</u>".data ∧
    draw_answer_line_wrapped (fun l => (l.length : ℚ)) 5 "a<red>bc</red>".data 2 1
      = draw_text_with_underline_wrapped (fun l => (l.length : ℚ)) 5 "a<u>bc</u>".data 2 1 :=
  ⟨by decide, C7_same_algorithm (fun l => (l.length : ℚ)) 2 1 5 _ _ (by decide)⟩

/-- C1: for every input paragraph, maximum width, width measurement and
starting cursor, concatenating the visible text of all tokens of all
lines produced by the greedy wrapper, in order, equals the input with
its markup tags stripped and the tagged spans' inner text preserved: no
character is dropped or duplicated by tokenization plus wrapping. -/
theorem C1_coverage (sw : List Char → ℚ) (maxW lh y : ℚ) (text : List Char) :
    visibleText (((draw_text_with_underline_wrapped sw y text maxW lh).1.map Prod.fst).flatten)
      = stripTags text := by
  rw [draw_text_with_underline_wrapped, wrapAux_flatten]
  simpa using visibleText_tokenize text

/-- C6: tokenization is idempotent under re-serialization: for every
input string, re-serializing the tokenizer's output (plain tokens
concatenated, tagged runs re-wrapped in their tag delimiters) and
tokenizing the result yields exactly the same token sequence. -/
theorem C6_tokenize_idempotent (s : List Char) :
    tokenize (reserialize uOpen uClose (tokenize s)) = tokenize s := by
  rw [reserialize_tokenize]

/-- C8 counterexample: an empty tagged span is NOT dropped by the
tokenizer: the input `<u></u>` produces the zero-width token
`Token.tagged []`, which is handed to the line wrapper, so the empty
span does contribute a token. -/
theorem C8_counterexample :
    tokenize "<u></u>".data = [Token.tagged []] ∧ tokenize "<u></u>".data ≠ [] := by
  constructor
  · decide
  · decide

/-- C8 amended: an empty tagged span produces a zero-width token
(`Token.tagged []`, whose visible text is empty) that is kept: the
wrapper receives it and places it on a line.  Unmatched or malformed
tags are still treated as literal plain characters, and the tokenizer
is a total function (it raises nothing on any input). -/
theorem C8_empty_span (sw : List Char → ℚ) (maxW lh y : ℚ) :
    tokenize "<u></u>".data = [Token.tagged []] ∧
    visible (Token.tagged []) = [] ∧
    (draw_text_with_underline_wrapped sw y "<u></u>".data maxW lh).1.map Prod.fst
      = [[Token.tagged []]] ∧
    tokenize "<u>a".data
      = [Token.plain '<', Token.plain 'u', Token.plain '>', Token.plain 'a'] := by
  refine ⟨by decide, rfl, ?_, by decide⟩
  have htok : tokenize "<u></u>".data = [Token.tagged []] := by decide
  rw [draw_text_with_underline_wrapped, htok]
  simp [wrapAux]

/-! ## Lemmas about the blank substitution -/

/-- The greedy run `[^】]+` consumes exactly a `】`-free word before the
closing bracket. -/
theorem takeWhile_word {w : List Char} (h : '】' ∉ w) :
    (w ++ ['】']).takeWhile (fun d => d ≠ '】') = w := by
  induction w with
  | nil => simp [List.takeWhile]
  | cons c w ih =>
    have hc : c ≠ '】' := fun hc => h (hc ▸ List.mem_cons_self c w)
    have hw : '】' ∉ w := fun hw => h (List.mem_cons_of_mem c hw)
    simpa [List.takeWhile_cons, hc] using ih hw

/-- On the exact text `【word】` with a non-empty, `】`-free word, the
blank pattern matches the whole input and captures the word. -/
theorem findBlank_wrap {w : List Char} (h1 : w ≠ []) (h2 : '】' ∉ w) :
    findBlank ('【' :: (w ++ ['】'])) = some ([], w, []) := by
  rw [findBlank, if_pos rfl]
  simp only [takeWhile_word h2]
  have hcond : w ≠ [] ∧ w.length < (w ++ ['】']).length := by
    constructor
    · exact h1
    · simp
  rw [if_pos hcond]
  have hdrop : (w ++ ['】']).drop (w.length + 1) = [] := by
    have hl : (w ++ ['】']).length = w.length + 1 := by simp
    rw [← hl, List.drop_length]
  rw [hdrop]

/-- C4: for every non-empty fill-in-the-blank target word, the blank
substituted for it in the student worksheet is an underline span of
exactly `max(len(word)*2, 4)` blank characters — a deterministic
function of the word's length that is never zero. -/
theorem C4_blank_length (w : List Char) (h1 : w ≠ []) (h2 : '】' ∉ w) :
    sub_blank ('【' :: (w ++ ['】']))
      = uOpen ++ List.replicate (max (w.length * 2) 4) ' ' ++ uClose ∧
    0 < max (w.length * 2) 4 := by
  constructor
  · rw [sub_blank]
    have hlen : ('【' :: (w ++ ['】'])).length = w.length + 1 + 1 := by simp
    rw [hlen]
    rw [show sub_blankF (w.length + 1 + 1) ('【' :: (w ++ ['】']))
        = match findBlank ('【' :: (w ++ ['】'])) with
          | none => '【' :: (w ++ ['】'])
          | some (pre, w', rest) =>
            pre ++ replace_blank w' ++ sub_blankF (w.length + 1) rest from rfl]
    rw [findBlank_wrap h1 h2]
    show replace_blank w ++ sub_blankF (w.length + 1) [] = _
    have hnil : sub_blankF (w.length + 1) [] = [] := by
      rw [show sub_blankF (w.length + 1) []
          = match findBlank [] with
            | none => ([] : List Char)
            | some (pre, w', rest) => pre ++ replace_blank w' ++ sub_blankF w.length rest
          from rfl]
      rfl
    rw [hnil, replace_blank]
    simp
  · have : 0 < 4 := by norm_num
    omega

/-- Witness for C4 at the concrete word `ab`: the blank has
`max(2*2, 4) = 4` characters. -/
theorem C4_blank_length_witness :
    (['a', 'b'] ≠ []) ∧ ('】' ∉ ['a', 'b']) ∧
    (sub_blank ('【' :: (['a', 'b'] ++ ['】']))
        = uOpen ++ List.replicate (max (['a', 'b'].length * 2) 4) ' ' ++ uClose ∧
      0 < max (['a', 'b'].length * 2) 4) :=
  ⟨by decide, by decide, C4_blank_length ['a', 'b'] (by decide) (by decide)⟩

/-! ## Lemmas about the word-list deduplication -/

/-- `firstOccur` commutes with every filter: filtering keeps relative
order, so it also keeps first occurrences. -/
theorem firstOccur_filter {α : Type} [DecidableEq α] (p : α → Bool) :
    ∀ l : List α, firstOccur (l.filter p) = (firstOccur l).filter p := by
  intro l
  induction l with
  | nil => rfl
  | cons c l ih =>
    rw [List.filter_cons]
    by_cases hp : p c = true
    · rw [if_pos hp, firstOccur, firstOccur, ih, List.filter_cons, if_pos hp,
        List.filter_comm]
    · rw [if_neg hp, ih, firstOccur, List.filter_cons, if_neg hp, List.filter_comm]
      symm
      apply List.filter_eq_self.mpr
      intro b hb
      have hbp : p b = true := (List.mem_filter.mp hb).2
      have hbc : b ≠ c := fun hbc => hp (hbc ▸ hbp)
      simpa using hbc

/-- The `dict.fromkeys` fold with seen-set `acc` keeps, after `acc`, the
first occurrences of the unseen elements. -/
theorem foldl_insert_eq {α : Type} [DecidableEq α] :
    ∀ (l acc : List α),
      l.foldl (fun acc w => if w ∈ acc then acc else acc ++ [w]) acc
        = acc ++ firstOccur (l.filter (fun b => b ∉ acc)) := by
  intro l
  induction l with
  | nil => intro acc; simp [firstOccur]
  | cons c l ih =>
    intro acc
    rw [List.foldl_cons]
    by_cases hc : c ∈ acc
    · rw [if_pos hc, ih acc]
      congr 2
      simp [List.filter_cons, hc]
    · rw [if_neg hc, ih (acc ++ [c])]
      have hfil : l.filter (fun b => b ∉ acc ++ [c])
          = (l.filter (fun b => b ∉ acc)).filter (fun b => b ≠ c) := by
        rw [List.filter_filter]
        apply List.filter_congr
        intro b _
        by_cases hb : b = c
        · subst hb; simp [List.mem_append]
        · simp [List.mem_append, hb]
      rw [hfil, firstOccur_filter]
      have hkeep : (c :: l).filter (fun b => b ∉ acc)
          = c :: l.filter (fun b => b ∉ acc) := by
        simp [List.filter_cons, hc]
      rw [hkeep, firstOccur]
      simp

/-- Membership is preserved by `firstOccur`. -/
theorem mem_firstOccur {α : Type} [DecidableEq α] (a : α) :
    ∀ l : List α, a ∈ firstOccur l ↔ a ∈ l := by
  intro l
  induction l with
  | nil => simp [firstOccur]
  | cons c l ih =>
    by_cases hac : a = c
    · subst hac; simp [firstOccur]
    · simp [firstOccur, List.mem_filter, hac, ih]

/-- `firstOccur` produces no duplicates. -/
theorem nodup_firstOccur {α : Type} [DecidableEq α] :
    ∀ l : List α, (firstOccur l).Nodup := by
  intro l
  induction l with
  | nil => simp [firstOccur]
  | cons c l ih =>
    rw [firstOccur, List.nodup_cons]
    exact ⟨by simp [List.mem_filter], ih.filter _⟩

/-- `firstOccur` is empty exactly on the empty list. -/
theorem firstOccur_eq_nil {α : Type} [DecidableEq α] (l : List α) :
    firstOccur l = [] ↔ l = [] := by
  cases l with
  | nil => simp [firstOccur]
  | cons c l => simp [firstOccur]

/-- The `dict.fromkeys` deduplication keeps exactly the first occurrence
of each element, in order. -/
theorem dedupFirst_eq_firstOccur {α : Type} [DecidableEq α] (l : List α) :
    dedupFirst l = firstOccur l := by
  rw [dedupFirst, foldl_insert_eq]
  have : l.filter (fun b => b ∉ ([] : List α)) = l := by
    apply List.filter_eq_self.mpr
    intro a _
    simp
  rw [this]
  simp

/-- C10: the word-list appendix of the student worksheet deduplicates
the words: the rendered entries are exactly the non-empty (stripped)
words, without duplicates, in order of first occurrence; empty words
are omitted, and if no non-empty word remains no word-list page is
added at all. -/
theorem C10_word_list (sw : List Char → ℚ) (qs : List Question) :
    ((create_pdf sw qs).2.2 = none ↔
        ((qs.map (fun q => trimChars q.word)).filter (fun w => !w.isEmpty)) = []) ∧
    ((((create_pdf sw qs).2.2).getD []).Nodup) ∧
    (∀ w, w ∈ ((create_pdf sw qs).2.2).getD []
        ↔ w ∈ (qs.map (fun q => trimChars q.word)).filter (fun w => !w.isEmpty)) ∧
    ((create_pdf sw qs).2.2).getD []
      = firstOccur ((qs.map (fun q => trimChars q.word)).filter (fun w => !w.isEmpty)) := by
  have hcomp : (create_pdf sw qs).2.2
      = draw_word_list_page (qs.map (fun q => trimChars q.word)) := rfl
  rw [hcomp, draw_word_list_page, dedupFirst_eq_firstOccur]
  by_cases h : firstOccur ((qs.map (fun q => trimChars q.word)).filter (fun w => !w.isEmpty)) = []
  · rw [if_pos h]
    have hfw := (firstOccur_eq_nil _).mp h
    refine ⟨by simp [hfw], by simp, ?_, by simp [h]⟩
    intro w
    simp [hfw]
  · rw [if_neg h]
    have hfw : ((qs.map (fun q => trimChars q.word)).filter (fun w => !w.isEmpty)) ≠ [] :=
      fun hc => h (by rw [hc]; rfl)
    refine ⟨by simp [hfw], ?_, ?_, by simp⟩
    · simp only [Option.getD_some]
      exact nodup_firstOccur _
    · intro w
      simp only [Option.getD_some]
      exact mem_firstOccur w _


/-- C9: the CC address is added to the worksheet e-mail if and only if,
after trimming and lowercasing, it is not one of the placeholders
`""`, `"n/a"`, `"nan"`, `"none"`, contains the character `@`, and
differs from the lowercased primary recipient; otherwise no CC is
added and no error is raised (the block is a total function). -/
theorem C9_cc_filter (recipient cc_email : List Char) :
    (add_cc recipient cc_email).isSome = true ↔ ccSpecOk recipient cc_email := by
  rw [add_cc, ccSpecOk]
  by_cases h0 : cc_email = []
  · subst h0
    rw [if_pos rfl]
    simp only [Option.isSome_none, Bool.false_eq_true, false_iff]
    intro hcon
    exact hcon.1 (by decide)
  · rw [if_neg h0]
    by_cases hc : toLowerChars (trimChars cc_email)
          ∉ ["n/a".data, "nan".data, "".data, "none".data] ∧
        '@' ∈ toLowerChars (trimChars cc_email) ∧
        toLowerChars (trimChars cc_email) ≠ toLowerChars recipient
    · rw [if_pos hc]
      simp only [Option.isSome_some, true_iff]
      refine ⟨?_, hc.2.1, hc.2.2⟩
      have := hc.1
      simp only [List.mem_cons, List.not_mem_nil] at this ⊢
      tauto
    · rw [if_neg hc]
      simp only [Option.isSome_none, Bool.false_eq_true, false_iff]
      intro hcon
      apply hc
      refine ⟨?_, hcon.2.1, hcon.2.2⟩
      have := hcon.1
      simp only [List.mem_cons, List.not_mem_nil] at this ⊢
      tauto

/-- The page-break check of `create_pdf` runs only at the start of each
question: whatever the incoming cursor, the question's first line is
drawn at a `y` with `y - PDF_LINE_HEIGHT ≥ 60`, and when the check
fires the cursor is reset to the top margin. -/
theorem layoutQuestions_start (sw : List Char → ℚ) :
    ∀ (qs : List Question) (curY : ℚ) (ql : QuestionLayout),
      ql ∈ (layoutQuestions sw qs curY).1 →
      60 ≤ ql.startY - PDF_LINE_HEIGHT ∧
        (ql.pageBreak = true → ql.startY = pageHeight - 60) := by
  intro qs
  induction qs with
  | nil => intro curY ql h; simp [layoutQuestions] at h
  | cons q qs ih =>
    intro curY ql h
    rw [layoutQuestions] at h
    simp only [List.mem_cons] at h
    rcases h with rfl | h
    · rw [layoutQuestion]
      by_cases hpb : curY - PDF_LINE_HEIGHT < 60
      · have hd : decide (curY - PDF_LINE_HEIGHT < 60) = true := decide_eq_true hpb
        simp only [hd, if_true]
        exact ⟨by norm_num [pageHeight, PDF_LINE_HEIGHT], fun _ => trivial⟩
      · have hd : decide (curY - PDF_LINE_HEIGHT < 60) = false := decide_eq_false hpb
        simp only [hd, Bool.false_eq_true, if_false]
        exact ⟨le_of_not_lt hpb, fun hcon => absurd hcon (by simp)⟩
    · exact ih _ ql h

set_option maxHeartbeats 3000000 in
/-- C3 counterexample: with a width measurement that forces one token
per line, a single 25-character question starts at `y = 672` with no
page break and its wrapped lines walk straight past the bottom margin,
the last line being drawn at `y = 48 < 60`: the cursor goes below the
bottom margin without the renderer starting a new page. -/
theorem C3_counterexample :
    ((create_pdf (fun _ => (482 : ℚ)) [⟨['w'], List.replicate 25 'a'⟩]).1.all
        (fun ql => !ql.pageBreak) = true) ∧
    ((create_pdf (fun _ => (482 : ℚ)) [⟨['w'], List.replicate 25 'a'⟩]).1.any
        (fun ql => ql.lineYs.any (fun yv => decide (yv < 60))) = true) := by
  have hsub : applySubsts (List.replicate 25 'a') = List.replicate 25 'a' := by decide
  have htok : tokenize (List.replicate 25 'a')
      = List.replicate 25 (Token.plain 'a') := by decide
  have htr : (create_pdf (fun _ => (482 : ℚ)) [⟨['w'], List.replicate 25 'a'⟩]).1
      = [⟨false, 672, [672, 646, 620, 594, 568, 542, 516, 490, 464, 438, 412, 386, 360,
          334, 308, 282, 256, 230, 204, 178, 152, 126, 100, 74, 48]⟩] := by
    norm_num [create_pdf, layoutQuestions, layoutQuestion, pageHeight, PDF_LINE_HEIGHT,
      hsub, htok, draw_text_with_underline_wrapped, wrapAux, measure, get_max_width,
      PDF_RIGHT_MARGIN, PDF_TEXT_START, PDF_LEFT_NUM, pageWidth, List.replicate_succ]
  rw [htr]
  constructor
  · rfl
  · simp only [List.any_cons, List.any_nil, Bool.or_false, QuestionLayout.lineYs]
    have h48 : decide ((48 : ℚ) < 60) = true := decide_eq_true (by norm_num)
    simp [h48]

/-- C3 amended: the bottom-margin check happens only before each
question, not per wrapped line: for every width measurement and
question list, every question's first line is drawn at a `y` with
`y - PDF_LINE_HEIGHT ≥ 60` (the check fired resets `y` to the top
margin `pageHeight - 60`), but the `y` positions of a question's later
wrapped lines may fall below the bottom margin without a page break. -/
theorem C3_question_start_margin (sw : List Char → ℚ) (qs : List Question) :
    ∀ ql ∈ (create_pdf sw qs).1,
      60 ≤ ql.startY - PDF_LINE_HEIGHT ∧
        (ql.pageBreak = true → ql.startY = pageHeight - 60) := by
  intro ql h
  exact layoutQuestions_start sw qs _ ql h

/-- Witness for the amended C3 at a concrete worksheet: the single
question `b` is laid out starting at `y = 672`, and `672 - 26 ≥ 60`. -/
theorem C3_question_start_margin_witness :
    ((⟨false, 672, [672]⟩ : QuestionLayout)
        ∈ (create_pdf (fun _ => (1 : ℚ)) [⟨['w'], ['b']⟩]).1) ∧
    (60 ≤ (⟨false, 672, [672]⟩ : QuestionLayout).startY - PDF_LINE_HEIGHT ∧
      ((⟨false, 672, [672]⟩ : QuestionLayout).pageBreak = true →
        (⟨false, 672, [672]⟩ : QuestionLayout).startY = pageHeight - 60)) := by
  have hsub : applySubsts ['b'] = ['b'] := by decide
  have htok : tokenize ['b'] = [Token.plain 'b'] := by decide
  have htr : (create_pdf (fun _ => (1 : ℚ)) [⟨['w'], ['b']⟩]).1
      = [⟨false, 672, [672]⟩] := by
    norm_num [create_pdf, layoutQuestions, layoutQuestion, pageHeight, PDF_LINE_HEIGHT,
      hsub, htok, draw_text_with_underline_wrapped, wrapAux, measure, get_max_width,
      PDF_RIGHT_MARGIN, PDF_TEXT_START, PDF_LEFT_NUM, pageWidth]
  have hmem : (⟨false, 672, [672]⟩ : QuestionLayout)
      ∈ (create_pdf (fun _ => (1 : ℚ)) [⟨['w'], ['b']⟩]).1 := by
    rw [htr]; simp
  exact ⟨hmem, C3_question_start_margin (fun _ => (1 : ℚ)) [⟨['w'], ['b']⟩] _ hmem⟩
